import Mathlib

/-!
Verification development for the polar-core term model, AST folder
framework (src/polar-core/src/folder.rs) and knowledge base
(src/polar-core/src/kb.rs).

The term model (`terms.rs`), counter (`counter.rs`), rule grouping
(`rules.rs`) and source registry (`sources.rs`) are not part of the
provided sources; their shapes are modelled from the specification and
from how `folder.rs` and `kb.rs` destructure them.  Rust `HashMap`s are
modelled as association lists with insert-overwrite semantics, and
`BTreeMap`s as key-sorted association lists built by repeated ordered
insertion (later insertions of an existing key overwrite its value, as
`collect` into a `BTreeMap` does).  A Rust panic (an `unwrap` of `None`)
is modelled by an explicit `panicked` outcome.
-/

namespace Polar

/-- Modelled from the spec: `Symbol` is an owned string identifier, compared
and ordered lexicographically on the underlying text (`terms.rs` is not in
the provided sources). -/
structure Symbol where
  name : String
deriving DecidableEq, Repr

/-- Lexicographic (string) strict order on symbols, as used by the
`BTreeMap Symbol _` containers. -/
def symLt (a b : Symbol) : Bool := a.name < b.name

/-- Modelled from the spec: a numeric literal (integer or float); the folder
treats it atomically, so floats are represented by their bit pattern. -/
inductive Numeric where
  | Integer (i : Int)
  | Float (bits : Nat)
deriving DecidableEq, Repr

/-- Modelled from the spec: `Operator` is an opaque symbolic tag carrying no
payload (representative constructors). -/
inductive Operator where
  | Add | Sub | Mul | Div | And | Or | Not | Unify | Eq | Lt | Gt | Dot | In | Isa
deriving DecidableEq, Repr

/-- Modelled from the spec: a named logic variable. -/
structure Variable where
  name : Symbol
deriving DecidableEq, Repr

/-- Modelled from the spec: provenance metadata (originating source span and
file id) carried by a `Term` and a `Rule`; the folder passes it through
untouched. -/
structure SourceInfo where
  src_id : Nat
  left : Nat
  right : Nat
deriving DecidableEq, Repr

mutual

/-- The tagged-union payload of a term: exactly one variant is active
(`Value` in `terms.rs`, with the variants destructured by
`folder.rs::fold_value`). -/
inductive Value where
  | Number (n : Numeric)
  | String (s : String)
  | Boolean (b : Bool)
  | Variable (v : Variable)
  | Dictionary (d : Dictionary)
  | InstanceLiteral (i : InstanceLiteral)
  | Call (c : Call)
  | List (l : PolarList)
  | Expression (o : Operation)

/-- An AST node: a `Value` plus source provenance; `clone_with_value`
replaces the value and keeps the provenance. -/
inductive Term where
  | mk (value : Value) (source_info : SourceInfo)

/-- An ordered-by-key mapping from `Symbol` to `Term` (a `BTreeMap` in the
source, modelled as a key-sorted association list). -/
inductive Dictionary where
  | mk (fields : List (Symbol × Term))

/-- A class tag plus a dictionary of field patterns. -/
inductive InstanceLiteral where
  | mk (tag : Symbol) (fields : Dictionary)

/-- A predicate/function call: name, positional args, optional keyword-arg
map (a `BTreeMap` in the source). -/
inductive Call where
  | mk (name : Symbol) (args : List Term) (kwargs : Option (List (Symbol × Term)))

/-- The polar list value (`List` in `terms.rs`): ordered elements plus an
optional trailing rest-variable. -/
inductive PolarList where
  | mk (elements : List Term) (rest_var : Option Variable)

/-- An operator applied to an ordered argument sequence. -/
inductive Operation where
  | mk (operator : Operator) (args : List Term)

end

def Term.value : Term → Value
  | .mk v _ => v

def Term.source_info : Term → SourceInfo
  | .mk _ si => si

/-- The clone-with-new-value operation on `Term`: same provenance, new
value. -/
def Term.clone_with_value : Term → Value → Term
  | .mk _ si, v => .mk v si

def Dictionary.fields : Dictionary → List (Symbol × Term)
  | .mk fs => fs

/-- A formal parameter: the parameter term and an optional specializer. -/
structure Parameter where
  parameter : Term
  specializer : Option Term

/-- A rule clause: name, parameters, body, provenance, `required` flag
(fields as destructured by `folder.rs::fold_rule`). -/
structure Rule where
  name : Symbol
  params : List Parameter
  body : Term
  source_info : SourceInfo
  required : Bool

/-- Ordered insertion into a key-sorted association list, overwriting the
value when the key is already present (the `BTreeMap::insert`
behaviour). -/
def btreeInsert (m : List (Symbol × Term)) (k : Symbol) (v : Term) :
    List (Symbol × Term) :=
  match m with
  | [] => [(k, v)]
  | (k1, v1) :: rest =>
    if k = k1 then (k, v) :: rest
    else if symLt k k1 then (k, v) :: (k1, v1) :: rest
    else (k1, v1) :: btreeInsert rest k v

/-- Collecting an iterator into a `BTreeMap`: insert the pairs left to
right, so a later pair with an equal key overwrites an earlier one. -/
def btreeFromList (l : List (Symbol × Term)) : List (Symbol × Term) :=
  List.foldl (fun m kv => btreeInsert m kv.1 kv.2) [] l

/-- The folder capability of `folder.rs`, restricted to its leaf hooks
(`fold_number`, `fold_string`, `fold_boolean`, `fold_symbol`,
`fold_variable`, `fold_operator`).  Every composite hook (`fold_term`,
`fold_value`, `fold_dictionary`, `fold_call`, `fold_list`,
`fold_operation`, `fold_instance_literal`, `fold_param`, `fold_rule`) is
taken at its default implementation — the free `fold_*` function of the
same name below — which is exactly the configuration of every folder the
verified properties are about (the trivial folder and folders overriding
only a leaf hook).  The free functions recurse through the folder's leaf
hooks at every leaf position, mirroring the open recursion of the trait
defaults. -/
structure Folder where
  fold_number : Numeric → Numeric
  fold_string : String → String
  fold_boolean : Bool → Bool
  fold_symbol : Symbol → Symbol
  fold_variable : Variable → Variable
  fold_operator : Operator → Operator

/-- The folder that overrides no hooks (`TrivialFolder` in the source's
tests): every leaf hook is the identity default. -/
def identityFolder : Folder :=
  { fold_number := fun n => n
    fold_string := fun s => s
    fold_boolean := fun b => b
    fold_symbol := fun s => s
    fold_variable := fun v => v
    fold_operator := fun o => o }

theorem idf_number (n : Numeric) : identityFolder.fold_number n = n := rfl

theorem idf_string (s : String) : identityFolder.fold_string s = s := rfl

theorem idf_boolean (b : Bool) : identityFolder.fold_boolean b = b := rfl

theorem idf_symbol (s : Symbol) : identityFolder.fold_symbol s = s := rfl

theorem idf_variable (v : Variable) : identityFolder.fold_variable v = v := rfl

theorem idf_operator (o : Operator) : identityFolder.fold_operator o = o := rfl

mutual

/-- folder.rs `fold_term`: replace the value, keep the provenance. -/
def fold_term (fld : Folder) : Term → Term
  | .mk v si => (Term.mk v si).clone_with_value (fold_value fld v)
termination_by structural t => t

/-- folder.rs `fold_value`: dispatch on the active variant, delegate each
payload to the hook for its kind, re-wrap in the same variant. -/
def fold_value (fld : Folder) : Value → Value
  | .Number n => .Number (fld.fold_number n)
  | .String s => .String (fld.fold_string s)
  | .Boolean b => .Boolean (fld.fold_boolean b)
  | .Dictionary d => .Dictionary (fold_dictionary fld d)
  | .InstanceLiteral i => .InstanceLiteral (fold_instance_literal fld i)
  | .Call c => .Call (fold_call fld c)
  | .List l => .List (fold_list fld l)
  | .Variable v => .Variable (fld.fold_variable v)
  | .Expression o => .Expression (fold_operation fld o)
termination_by structural v => v

/-- folder.rs `fold_term_list`: element-wise `fold_term`, order
preserved. -/
def fold_term_list (fld : Folder) : List Term → List Term
  | [] => []
  | t :: rest => fold_term fld t :: fold_term_list fld rest
termination_by structural l => l

/-- The map over a `BTreeMap`'s pairs done inside `fold_dictionary` and
`fold_call`: each key through `fold_symbol`, each value through
`fold_term`, in iteration order. -/
def fold_fields (fld : Folder) : List (Symbol × Term) → List (Symbol × Term)
  | [] => []
  | (k, v) :: rest => (fld.fold_symbol k, fold_term fld v) :: fold_fields fld rest
termination_by structural l => l

/-- folder.rs `fold_dictionary`: map every pair, collect back into a
`BTreeMap`. -/
def fold_dictionary (fld : Folder) : Dictionary → Dictionary
  | .mk fields => .mk (btreeFromList (fold_fields fld fields))
termination_by structural d => d

/-- folder.rs `fold_instance_literal`: tag through `fold_symbol`, fields
through `fold_dictionary`. -/
def fold_instance_literal (fld : Folder) : InstanceLiteral → InstanceLiteral
  | .mk tag fields => .mk (fld.fold_symbol tag) (fold_dictionary fld fields)
termination_by structural i => i

/-- folder.rs `fold_call`: name, positional args, and (when present) the
kwargs map collected back into a `BTreeMap`. -/
def fold_call (fld : Folder) : Call → Call
  | .mk name args kwargs =>
    .mk (fld.fold_symbol name) (fold_term_list fld args)
      (match kwargs with
       | none => none
       | some kw => some (btreeFromList (fold_fields fld kw)))
termination_by structural c => c

/-- folder.rs `fold_list`: elements element-wise, rest-variable through
`fold_variable` when present. -/
def fold_list (fld : Folder) : PolarList → PolarList
  | .mk elements rest_var =>
    .mk (fold_term_list fld elements) (rest_var.map fld.fold_variable)
termination_by structural l => l

/-- folder.rs `fold_operation`: operator tag and argument sequence. -/
def fold_operation (fld : Folder) : Operation → Operation
  | .mk operator args => .mk (fld.fold_operator operator) (fold_term_list fld args)
termination_by structural o => o

end

/-- Key `k` is strictly below every key of `l`. -/
def keyBelow (k : Symbol) (l : List (Symbol × Term)) : Bool :=
  l.all (fun kv => symLt k kv.1)

/-- The association list is strictly sorted by key — the invariant every
`BTreeMap` of the source maintains by construction. -/
def sortedKeys : List (Symbol × Term) → Bool
  | [] => true
  | (k, _) :: rest => keyBelow k rest && sortedKeys rest

mutual

/-- A term is representable iff every `BTreeMap` inside it is strictly
key-sorted (dictionaries and kwargs maps). -/
def wfTerm : Term → Bool
  | .mk v _ => wfValue v
termination_by structural t => t

def wfValue : Value → Bool
  | .Number _ => true
  | .String _ => true
  | .Boolean _ => true
  | .Variable _ => true
  | .Dictionary d => wfDictionary d
  | .InstanceLiteral i => wfInstanceLiteral i
  | .Call c => wfCall c
  | .List l => wfPolarList l
  | .Expression o => wfOperation o
termination_by structural v => v

def wfTermList : List Term → Bool
  | [] => true
  | t :: rest => wfTerm t && wfTermList rest
termination_by structural l => l

def wfFields : List (Symbol × Term) → Bool
  | [] => true
  | (_, v) :: rest => wfTerm v && wfFields rest
termination_by structural l => l

def wfDictionary : Dictionary → Bool
  | .mk fields => sortedKeys fields && wfFields fields
termination_by structural d => d

def wfInstanceLiteral : InstanceLiteral → Bool
  | .mk _ fields => wfDictionary fields
termination_by structural i => i

def wfCall : Call → Bool
  | .mk _ args kwargs =>
    wfTermList args &&
      (match kwargs with
       | none => true
       | some kw => sortedKeys kw && wfFields kw)
termination_by structural c => c

def wfPolarList : PolarList → Bool
  | .mk elements _ => wfTermList elements
termination_by structural l => l

def wfOperation : Operation → Bool
  | .mk _ args => wfTermList args
termination_by structural o => o

end

def wfParam (p : Parameter) : Bool :=
  wfTerm p.parameter &&
    (match p.specializer with
     | none => true
     | some t => wfTerm t)

def wfRule (r : Rule) : Bool :=
  r.params.all wfParam && wfTerm r.body

/-- Inserting a key strictly above every key of a sorted list appends at
the end. -/
theorem btreeInsert_above (m : List (Symbol × Term)) (k : Symbol) (v : Term)
    (h : (m.all fun kv => symLt kv.1 k) = true) :
    btreeInsert m k v = m ++ [(k, v)] := by
  induction m with
  | nil => rfl
  | cons hd tl ih =>
    obtain ⟨k1, v1⟩ := hd
    simp only [List.all_cons, Bool.and_eq_true] at h
    obtain ⟨h1, h2⟩ := h
    have hlt : k1.name < k.name := by simpa [symLt] using h1
    have hne : k ≠ k1 := by
      intro he
      subst he
      exact lt_irrefl _ hlt
    have hsf : symLt k k1 = false := by
      simp only [symLt, decide_eq_false_iff_not]
      exact fun hx => lt_asymm hlt hx
    simp only [btreeInsert, if_neg hne, hsf, Bool.false_eq_true, if_false,
      ih h2, List.cons_append]

/-- In a sorted concatenation, every key on the left is below a key on the
right. -/
theorem sorted_append_below (acc : List (Symbol × Term)) (k : Symbol) (v : Term)
    (rest : List (Symbol × Term))
    (h : sortedKeys (acc ++ (k, v) :: rest) = true) :
    (acc.all fun kv => symLt kv.1 k) = true := by
  induction acc with
  | nil => rfl
  | cons hd tl ih =>
    obtain ⟨a, av⟩ := hd
    simp only [List.cons_append, sortedKeys, keyBelow, Bool.and_eq_true,
      List.append_eq, List.all_append, List.all_cons] at h
    simp only [List.all_cons, Bool.and_eq_true]
    exact ⟨h.1.2.1, ih h.2⟩

/-- Folding ordered inserts over a tail of an already-sorted concatenation
just appends the tail. -/
theorem foldl_btreeInsert_sorted (l acc : List (Symbol × Term))
    (h : sortedKeys (acc ++ l) = true) :
    List.foldl (fun m kv => btreeInsert m kv.1 kv.2) acc l = acc ++ l := by
  induction l generalizing acc with
  | nil => simp
  | cons hd tl ih =>
    obtain ⟨k, v⟩ := hd
    have hins : btreeInsert acc k v = acc ++ [(k, v)] :=
      btreeInsert_above acc k v (sorted_append_below acc k v tl h)
    have hassoc : (acc ++ [(k, v)]) ++ tl = acc ++ (k, v) :: tl := by simp
    simp only [List.foldl_cons, hins]
    rw [ih (acc ++ [(k, v)]) (by rw [hassoc]; exact h), hassoc]

/-- Collecting an already-sorted association list into a `BTreeMap` is the
identity. -/
theorem btreeFromList_sorted (l : List (Symbol × Term))
    (h : sortedKeys l = true) : btreeFromList l = l := by
  simpa [btreeFromList] using foldl_btreeInsert_sorted l [] (by simpa using h)

/-- folder.rs `fold_param`: parameter term and optional specializer. -/
def fold_param (fld : Folder) (p : Parameter) : Parameter :=
  { parameter := fold_term fld p.parameter
    specializer := p.specializer.map (fold_term fld) }

/-- folder.rs `fold_rule`: name, parameters (order preserved), body;
provenance and the `required` flag pass through. -/
def fold_rule (fld : Folder) (r : Rule) : Rule :=
  { name := fld.fold_symbol r.name
    params := r.params.map (fold_param fld)
    body := fold_term fld r.body
    source_info := r.source_info
    required := r.required }

mutual

theorem fold_term_id : ∀ t, wfTerm t = true → fold_term identityFolder t = t
  | .mk v _, h => by
    have hv := fold_value_id v (by simpa [wfTerm] using h)
    simp [fold_term, Term.clone_with_value, hv]

theorem fold_value_id : ∀ v, wfValue v = true → fold_value identityFolder v = v
  | .Number _, _ => by simp [fold_value, identityFolder]
  | .String _, _ => by simp [fold_value, identityFolder]
  | .Boolean _, _ => by simp [fold_value, identityFolder]
  | .Variable _, _ => by simp [fold_value, identityFolder]
  | .Dictionary d, h => by
    have hd := fold_dictionary_id d (by simpa [wfValue] using h)
    simp [fold_value, hd]
  | .InstanceLiteral i, h => by
    have hi := fold_instance_literal_id i (by simpa [wfValue] using h)
    simp [fold_value, hi]
  | .Call c, h => by
    have hc := fold_call_id c (by simpa [wfValue] using h)
    simp [fold_value, hc]
  | .List l, h => by
    have hl := fold_polar_list_id l (by simpa [wfValue] using h)
    simp [fold_value, hl]
  | .Expression o, h => by
    have ho := fold_operation_id o (by simpa [wfValue] using h)
    simp [fold_value, ho]

theorem fold_term_list_id :
    ∀ l, wfTermList l = true → fold_term_list identityFolder l = l
  | [], _ => by simp [fold_term_list]
  | t :: rest, h => by
    have h1 : wfTerm t = true := by
      simpa [wfTermList, Bool.and_eq_true] using And.left (by
        simpa [wfTermList, Bool.and_eq_true] using h)
    have h2 : wfTermList rest = true := by
      simpa [wfTermList, Bool.and_eq_true] using And.right (by
        simpa [wfTermList, Bool.and_eq_true] using h)
    simp [fold_term_list, fold_term_id t h1, fold_term_list_id rest h2]

theorem fold_fields_id :
    ∀ l, wfFields l = true → fold_fields identityFolder l = l
  | [], _ => by simp [fold_fields]
  | (k, v) :: rest, h => by
    have h' : wfTerm v = true ∧ wfFields rest = true := by
      simpa [wfFields, Bool.and_eq_true] using h
    simp [fold_fields, idf_symbol, fold_term_id v h'.1,
      fold_fields_id rest h'.2]

theorem fold_dictionary_id :
    ∀ d, wfDictionary d = true → fold_dictionary identityFolder d = d
  | .mk fields, h => by
    have h' : sortedKeys fields = true ∧ wfFields fields = true := by
      simpa [wfDictionary, Bool.and_eq_true] using h
    simp [fold_dictionary, fold_fields_id fields h'.2,
      btreeFromList_sorted fields h'.1]

theorem fold_instance_literal_id :
    ∀ i, wfInstanceLiteral i = true → fold_instance_literal identityFolder i = i
  | .mk tag fields, h => by
    have hd := fold_dictionary_id fields (by simpa [wfInstanceLiteral] using h)
    simp [fold_instance_literal, idf_symbol, hd]

theorem fold_call_id : ∀ c, wfCall c = true → fold_call identityFolder c = c
  | .mk name args none, h => by
    have ha : wfTermList args = true := by
      simpa [wfCall, Bool.and_eq_true] using h
    simp [fold_call, idf_symbol, fold_term_list_id args ha]
  | .mk name args (some kw), h => by
    have h' : wfTermList args = true ∧
        (sortedKeys kw = true ∧ wfFields kw = true) := by
      simpa [wfCall, Bool.and_eq_true] using h
    simp [fold_call, idf_symbol, fold_term_list_id args h'.1,
      fold_fields_id kw h'.2.2, btreeFromList_sorted kw h'.2.1]

theorem fold_polar_list_id :
    ∀ l, wfPolarList l = true → fold_list identityFolder l = l
  | .mk elements rest_var, h => by
    have he : wfTermList elements = true := by simpa [wfPolarList] using h
    cases rest_var with
    | none => simp [fold_list, fold_term_list_id elements he, Option.map]
    | some rv =>
      simp [fold_list, idf_variable, fold_term_list_id elements he,
        Option.map]

theorem fold_operation_id :
    ∀ o, wfOperation o = true → fold_operation identityFolder o = o
  | .mk operator args, h => by
    have ha : wfTermList args = true := by simpa [wfOperation] using h
    simp [fold_operation, idf_operator, fold_term_list_id args ha]

end

theorem fold_param_id (p : Parameter) (h : wfParam p = true) :
    fold_param identityFolder p = p := by
  obtain ⟨pt, spec⟩ := p
  cases spec with
  | none =>
    have hp : wfTerm pt = true := by simpa [wfParam] using h
    simp [fold_param, fold_term_id pt hp, Option.map]
  | some s =>
    have h' : wfTerm pt = true ∧ wfTerm s = true := by
      simpa [wfParam, Bool.and_eq_true] using h
    simp [fold_param, fold_term_id pt h'.1, fold_term_id s h'.2, Option.map]

theorem fold_rule_id (r : Rule) (h : wfRule r = true) :
    fold_rule identityFolder r = r := by
  have h' : (r.params.all wfParam) = true ∧ wfTerm r.body = true := by
    simpa [wfRule, Bool.and_eq_true] using h
  have hps : ∀ l : List Parameter, l.all wfParam = true →
      l.map (fold_param identityFolder) = l := fun l => by
    induction l with
    | nil => intro _; rfl
    | cons p ps ih =>
      intro hl
      simp only [List.all_cons, Bool.and_eq_true] at hl
      simp [List.map_cons, fold_param_id p hl.1, ih hl.2]
  simp [fold_rule, idf_symbol, hps r.params h'.1, fold_term_id r.body h'.2]

def xVar : Variable := ⟨⟨"x"⟩⟩

def yVar : Variable := ⟨⟨"y"⟩⟩

/-- The variable hook that rewrites the variable `x` to `y` and leaves
every other variable alone. -/
def renameHook (v : Variable) : Variable := if v = xVar then yVar else v

/-- A folder overriding only the `fold_variable` hook (to `renameHook`),
leaving every other hook at its default. -/
def renameXYFolder : Folder :=
  { identityFolder with fold_variable := renameHook }

theorem rnf_number (n : Numeric) : renameXYFolder.fold_number n = n := rfl

theorem rnf_string (s : String) : renameXYFolder.fold_string s = s := rfl

theorem rnf_boolean (b : Bool) : renameXYFolder.fold_boolean b = b := rfl

theorem rnf_symbol (s : Symbol) : renameXYFolder.fold_symbol s = s := rfl

theorem rnf_variable (v : Variable) :
    renameXYFolder.fold_variable v = renameHook v := rfl

theorem rnf_operator (o : Operator) : renameXYFolder.fold_operator o = o := rfl

mutual

/-- Modelled from the spec (open-recursion law): rewrite every occurrence
of the variable `x` to `y`, at any nesting depth, leaving all other
structure (keys, names, order, provenance) unchanged. -/
def renameTerm : Term → Term
  | .mk v si => .mk (renameValue v) si
termination_by structural t => t

def renameValue : Value → Value
  | .Number n => .Number n
  | .String s => .String s
  | .Boolean b => .Boolean b
  | .Variable v => .Variable (renameHook v)
  | .Dictionary d => .Dictionary (renameDictionary d)
  | .InstanceLiteral i => .InstanceLiteral (renameInstanceLiteral i)
  | .Call c => .Call (renameCall c)
  | .List l => .List (renamePolarList l)
  | .Expression o => .Expression (renameOperation o)
termination_by structural v => v

def renameTermList : List Term → List Term
  | [] => []
  | t :: rest => renameTerm t :: renameTermList rest
termination_by structural l => l

def renameFields : List (Symbol × Term) → List (Symbol × Term)
  | [] => []
  | (k, v) :: rest => (k, renameTerm v) :: renameFields rest
termination_by structural l => l

def renameDictionary : Dictionary → Dictionary
  | .mk fields => .mk (renameFields fields)
termination_by structural d => d

def renameInstanceLiteral : InstanceLiteral → InstanceLiteral
  | .mk tag fields => .mk tag (renameDictionary fields)
termination_by structural i => i

def renameCall : Call → Call
  | .mk name args kwargs =>
    .mk name (renameTermList args)
      (match kwargs with
       | none => none
       | some kw => some (renameFields kw))
termination_by structural c => c

def renamePolarList : PolarList → PolarList
  | .mk elements rest_var =>
    .mk (renameTermList elements) (rest_var.map renameHook)
termination_by structural l => l

def renameOperation : Operation → Operation
  | .mk operator args => .mk operator (renameTermList args)
termination_by structural o => o

end

/-- Renaming values does not change keys, so key bounds are preserved. -/
theorem keyBelow_renameFields (k : Symbol) (l : List (Symbol × Term)) :
    keyBelow k (renameFields l) = keyBelow k l := by
  induction l with
  | nil => rfl
  | cons hd tl ih =>
    obtain ⟨k1, v1⟩ := hd
    simp only [renameFields, keyBelow, List.all_cons] at *
    rw [ih]

/-- Renaming values does not change keys, so sortedness is preserved. -/
theorem sortedKeys_renameFields (l : List (Symbol × Term)) :
    sortedKeys (renameFields l) = sortedKeys l := by
  induction l with
  | nil => rfl
  | cons hd tl ih =>
    obtain ⟨k1, v1⟩ := hd
    simp [renameFields, sortedKeys, keyBelow_renameFields, ih]

mutual

theorem fold_term_rename :
    ∀ t, wfTerm t = true → fold_term renameXYFolder t = renameTerm t
  | .mk v _, h => by
    have hv := fold_value_rename v (by simpa [wfTerm] using h)
    simp [fold_term, renameTerm, Term.clone_with_value, hv]

theorem fold_value_rename :
    ∀ v, wfValue v = true → fold_value renameXYFolder v = renameValue v
  | .Number _, _ => by simp [fold_value, renameValue, rnf_number]
  | .String _, _ => by simp [fold_value, renameValue, rnf_string]
  | .Boolean _, _ => by simp [fold_value, renameValue, rnf_boolean]
  | .Variable _, _ => by simp [fold_value, renameValue, rnf_variable]
  | .Dictionary d, h => by
    have hd := fold_dictionary_rename d (by simpa [wfValue] using h)
    simp [fold_value, renameValue, hd]
  | .InstanceLiteral i, h => by
    have hi := fold_instance_literal_rename i (by simpa [wfValue] using h)
    simp [fold_value, renameValue, hi]
  | .Call c, h => by
    have hc := fold_call_rename c (by simpa [wfValue] using h)
    simp [fold_value, renameValue, hc]
  | .List l, h => by
    have hl := fold_polar_list_rename l (by simpa [wfValue] using h)
    simp [fold_value, renameValue, hl]
  | .Expression o, h => by
    have ho := fold_operation_rename o (by simpa [wfValue] using h)
    simp [fold_value, renameValue, ho]

theorem fold_term_list_rename :
    ∀ l, wfTermList l = true → fold_term_list renameXYFolder l = renameTermList l
  | [], _ => by simp [fold_term_list, renameTermList]
  | t :: rest, h => by
    have h' : wfTerm t = true ∧ wfTermList rest = true := by
      simpa [wfTermList, Bool.and_eq_true] using h
    simp [fold_term_list, renameTermList, fold_term_rename t h'.1,
      fold_term_list_rename rest h'.2]

theorem fold_fields_rename :
    ∀ l, wfFields l = true → fold_fields renameXYFolder l = renameFields l
  | [], _ => by simp [fold_fields, renameFields]
  | (k, v) :: rest, h => by
    have h' : wfTerm v = true ∧ wfFields rest = true := by
      simpa [wfFields, Bool.and_eq_true] using h
    simp [fold_fields, renameFields, rnf_symbol, fold_term_rename v h'.1,
      fold_fields_rename rest h'.2]

theorem fold_dictionary_rename :
    ∀ d, wfDictionary d = true → fold_dictionary renameXYFolder d = renameDictionary d
  | .mk fields, h => by
    have h' : sortedKeys fields = true ∧ wfFields fields = true := by
      simpa [wfDictionary, Bool.and_eq_true] using h
    have hs : sortedKeys (renameFields fields) = true := by
      rw [sortedKeys_renameFields]
      exact h'.1
    simp [fold_dictionary, renameDictionary, fold_fields_rename fields h'.2,
      btreeFromList_sorted (renameFields fields) hs]

theorem fold_instance_literal_rename :
    ∀ i, wfInstanceLiteral i = true →
      fold_instance_literal renameXYFolder i = renameInstanceLiteral i
  | .mk tag fields, h => by
    have hd := fold_dictionary_rename fields (by simpa [wfInstanceLiteral] using h)
    simp [fold_instance_literal, renameInstanceLiteral, rnf_symbol, hd]

theorem fold_call_rename :
    ∀ c, wfCall c = true → fold_call renameXYFolder c = renameCall c
  | .mk name args none, h => by
    have ha : wfTermList args = true := by
      simpa [wfCall, Bool.and_eq_true] using h
    simp [fold_call, renameCall, rnf_symbol, fold_term_list_rename args ha]
  | .mk name args (some kw), h => by
    have h' : wfTermList args = true ∧
        (sortedKeys kw = true ∧ wfFields kw = true) := by
      simpa [wfCall, Bool.and_eq_true] using h
    have hs : sortedKeys (renameFields kw) = true := by
      rw [sortedKeys_renameFields]
      exact h'.2.1
    simp [fold_call, renameCall, rnf_symbol, fold_term_list_rename args h'.1,
      fold_fields_rename kw h'.2.2, btreeFromList_sorted (renameFields kw) hs]

theorem fold_polar_list_rename :
    ∀ l, wfPolarList l = true → fold_list renameXYFolder l = renamePolarList l
  | .mk elements rest_var, h => by
    have he : wfTermList elements = true := by simpa [wfPolarList] using h
    cases rest_var with
    | none =>
      simp [fold_list, renamePolarList, fold_term_list_rename elements he,
        Option.map]
    | some rv =>
      simp [fold_list, renamePolarList, rnf_variable,
        fold_term_list_rename elements he, Option.map]

theorem fold_operation_rename :
    ∀ o, wfOperation o = true → fold_operation renameXYFolder o = renameOperation o
  | .mk operator args, h => by
    have ha : wfTermList args = true := by simpa [wfOperation] using h
    simp [fold_operation, renameOperation, rnf_operator,
      fold_term_list_rename args ha]

end

/-- Modelled from the spec: a dotted-path reference with a first segment
and an optional remainder; `into_1` takes the first segment and `into_2`
splits into "(local name)" or "(qualifying-scope name, remaining name)"
(terms.rs, which defines `Path`, is not in the provided sources). -/
structure Path where
  first : Symbol
  rest : Option Symbol
deriving DecidableEq, Repr

def Path.into_1 (p : Path) : Symbol := p.first

def Path.into_2 (p : Path) : Symbol × Option Symbol := (p.first, p.rest)

/-- The `Symbol → Path` conversion used by `sym!(...).into()`. -/
def Symbol.toPath (s : Symbol) : Path := ⟨s, none⟩

/-- HashMap lookup, modelled on an association list. -/
def hmGet {α : Type} (m : List (Symbol × α)) (k : Symbol) : Option α :=
  match m with
  | [] => none
  | (k1, v) :: rest => if k = k1 then some v else hmGet rest k

/-- HashMap insert: overwrites an existing binding for the key. -/
def hmInsert {α : Type} (m : List (Symbol × α)) (k : Symbol) (v : α) :
    List (Symbol × α) :=
  match m with
  | [] => [(k, v)]
  | (k1, v1) :: rest =>
    if k = k1 then (k, v) :: rest else (k1, v1) :: hmInsert rest k v

/-- The HashMap `entry(k).or_insert(d)` then mutate pattern: apply `f` to
the existing value for `k`, or to `d` when `k` is unbound. -/
def hmEntryModify {α : Type} (m : List (Symbol × α)) (k : Symbol) (d : α)
    (f : α → α) : List (Symbol × α) :=
  match m with
  | [] => [(k, f d)]
  | (k1, v1) :: rest =>
    if k = k1 then (k1, f v1) :: rest else (k1, v1) :: hmEntryModify rest k d f

/-- Modelled from the spec: counters wrap before exceeding 52 bits of
magnitude so every value round-trips through an IEEE-754 double
(`counter.rs` is not in the provided sources). -/
def MAX_ID : Nat := 2 ^ 52

/-- Modelled from the spec: `Counter::next` returns the current value and
advances, wrapping back to 1 instead of reaching `MAX_ID`; counter state
is the next value to hand out, starting at 1. -/
def counterNext (c : Nat) : Nat × Nat :=
  (c, if c + 1 < MAX_ID then c + 1 else 1)

/-- Modelled from the spec: the diagnostics source registry (`sources.rs`
is not in the provided sources); `Sources::default()` is the empty
registry. -/
structure Sources where
  entries : List (Nat × String)
deriving DecidableEq, Repr

def Sources.empty : Sources := ⟨[]⟩

/-- Modelled from the spec: `GenericRule` groups all rule clauses sharing
one name, append-only (`rules.rs` is not in the provided sources). -/
structure GenericRule where
  name : Symbol
  rules : List Rule

def GenericRule.new (name : Symbol) (rules : List Rule) : GenericRule :=
  ⟨name, rules⟩

/-- Modelled from the spec: `GenericRule::add_rule` appends the shared
clause, preserving insertion order. -/
def GenericRule.add_rule (g : GenericRule) (r : Rule) : GenericRule :=
  { g with rules := g.rules ++ [r] }

/-- kb.rs `Scope`: a name, a constants map and a rules map. -/
structure Scope where
  name : Path
  constants : List (Symbol × Term)
  rules : List (Symbol × GenericRule)

/-- kb.rs `Scope::new`. -/
def Scope.new (name : Path) : Scope := ⟨name, [], []⟩

/-- kb.rs `KnowledgeBase`: scope map, source registry, the two counters,
and the inline-query queue. -/
structure KnowledgeBase where
  scopes : List (Symbol × Scope)
  sources : Sources
  gensym_counter : Nat
  id_counter : Nat
  inline_queries : List Term

def defaultSym : Symbol := ⟨"default"⟩

/-- kb.rs `KnowledgeBase::new`: exactly one scope, `default`. -/
def KnowledgeBase.new : KnowledgeBase :=
  { scopes := [(defaultSym, Scope.new defaultSym.toPath)]
    sources := Sources.empty
    gensym_counter := 1
    id_counter := 1
    inline_queries := [] }

/-- kb.rs `new_id`: the next value of the ID counter; the shared-counter
side effect is made explicit by state passing. -/
def KnowledgeBase.new_id (kb : KnowledgeBase) : Nat × KnowledgeBase :=
  let n := counterNext kb.id_counter
  (n.1, { kb with id_counter := n.2 })

/-- Rust `str::starts_with('_')`, written out on the character data. -/
def startsWithUnderscore (s : String) : Bool :=
  match s.data with
  | [] => false
  | c :: _ => c = '_'

/-- kb.rs `gensym`: the three-way prefix normalization rule over the next
gensym-counter value. -/
def KnowledgeBase.gensym (kb : KnowledgeBase) (pfx : String) :
    Symbol × KnowledgeBase :=
  let n := counterNext kb.gensym_counter
  let s :=
    if pfx = "_" then Symbol.mk ("_" ++ toString n.1)
    else if startsWithUnderscore pfx then Symbol.mk (pfx ++ "_" ++ toString n.1)
    else Symbol.mk ("_" ++ pfx ++ "_" ++ toString n.1)
  (s, { kb with gensym_counter := n.2 })

/-- Outcome of a knowledge-base operation that may hit an `unwrap` of
`None`: either a normal result or a Rust panic. -/
inductive PanicOr (α : Type) where
  | panicked
  | ok (a : α)

/-- kb.rs `get_included_scope`: for now everything is included in
everything, so just look the included scope up by its first segment. -/
def KnowledgeBase.get_included_scope (kb : KnowledgeBase) (_base : Scope)
    (included : Path) : Option Scope :=
  hmGet kb.scopes included.into_1

/-- kb.rs `lookup_constant`; the `unwrap` of `get_included_scope`'s result
in the qualified branch is modelled by `panicked`. -/
def KnowledgeBase.lookup_constant (kb : KnowledgeBase) (path scope : Path) :
    PanicOr (Option Term) :=
  match hmGet kb.scopes scope.into_1 with
  | some sc =>
    match path.into_2 with
    | (name, none) => .ok (hmGet sc.constants name)
    | (included_scope, some name) =>
      match kb.get_included_scope sc included_scope.toPath with
      | none => .panicked
      | some inc => .ok (hmGet inc.constants name)
  | none => .ok none

/-- kb.rs `lookup_rule`: identical resolution strategy over the rules
map. -/
def KnowledgeBase.lookup_rule (kb : KnowledgeBase) (path scope : Path) :
    PanicOr (Option GenericRule) :=
  match hmGet kb.scopes scope.into_1 with
  | some sc =>
    match path.into_2 with
    | (rule_name, none) => .ok (hmGet sc.rules rule_name)
    | (included_scope, some rule_name) =>
      match kb.get_included_scope sc included_scope.toPath with
      | none => .panicked
      | some inc => .ok (hmGet inc.rules rule_name)
  | none => .ok none

/-- kb.rs `is_constant`: whether `lookup_constant` of the bare name in the
default scope finds a binding (a bare path never reaches the `unwrap`, so
`is_constant` itself cannot panic). -/
def KnowledgeBase.is_constant (kb : KnowledgeBase) (symbol : Symbol) : Bool :=
  match kb.lookup_constant symbol.toPath defaultSym.toPath with
  | .ok (some _) => true
  | _ => false

/-- kb.rs `constant`: insert or overwrite the binding in the default
scope, creating the default scope first if absent. -/
def KnowledgeBase.constant (kb : KnowledgeBase) (name : Symbol) (value : Term) :
    KnowledgeBase :=
  { kb with
    scopes := hmEntryModify kb.scopes defaultSym (Scope.new defaultSym.toPath)
      (fun sc => { sc with constants := hmInsert sc.constants name value }) }

/-- kb.rs `add_rule`: `none` models the panic (`unwrap`) on an
unregistered scope; otherwise append the rule to the scope's group for
its name, creating the group if needed. -/
def KnowledgeBase.add_rule (kb : KnowledgeBase) (rule : Rule) (scope : Path) :
    Option KnowledgeBase :=
  match hmGet kb.scopes scope.into_1 with
  | none => none
  | some sc =>
    let name := rule.name
    let g :=
      match hmGet sc.rules name with
      | some g0 => g0
      | none => GenericRule.new name []
    some { kb with
      scopes := hmInsert kb.scopes scope.into_1
        { sc with rules := hmInsert sc.rules name (g.add_rule rule) } }

/-- kb.rs `clear_rules`: empty every scope's rule map, reset the source
registry, clear the inline-query queue; constants and counters are left
untouched. -/
def KnowledgeBase.clear_rules (kb : KnowledgeBase) : KnowledgeBase :=
  { kb with
    scopes := kb.scopes.map (fun nsc => (nsc.1, { nsc.2 with rules := [] }))
    sources := Sources.empty
    inline_queries := [] }

/-- A sequence of `add_rule` calls, stopping with `none` as soon as one
panics. -/
def applyAddRules (kb : KnowledgeBase) : List (Rule × Path) → Option KnowledgeBase
  | [] => some kb
  | (r, p) :: rest =>
    match kb.add_rule r p with
    | none => none
    | some kb1 => applyAddRules kb1 rest

theorem hmGet_insert_self {α : Type} (m : List (Symbol × α)) (k : Symbol)
    (v : α) : hmGet (hmInsert m k v) k = some v := by
  induction m with
  | nil => simp [hmInsert, hmGet]
  | cons hd tl ih =>
    obtain ⟨k1, v1⟩ := hd
    by_cases h : k = k1
    · simp [hmInsert, h, hmGet]
    · simp [hmInsert, h, hmGet, ih]

theorem hmGet_insert_ne {α : Type} (m : List (Symbol × α)) (k : Symbol)
    (v : α) (q : Symbol) (h : q ≠ k) :
    hmGet (hmInsert m k v) q = hmGet m q := by
  induction m with
  | nil => simp [hmInsert, hmGet, h]
  | cons hd tl ih =>
    obtain ⟨k1, v1⟩ := hd
    by_cases h1 : k = k1
    · subst h1
      simp [hmInsert, hmGet, h]
    · by_cases h2 : q = k1
      · simp [hmInsert, hmGet, h1, h2]
      · simp [hmInsert, hmGet, h1, h2, ih]

theorem hmGet_entryModify_self {α : Type} (m : List (Symbol × α)) (k : Symbol)
    (d : α) (f : α → α) :
    hmGet (hmEntryModify m k d f) k = some (f ((hmGet m k).getD d)) := by
  induction m with
  | nil => simp [hmEntryModify, hmGet]
  | cons hd tl ih =>
    obtain ⟨k1, v1⟩ := hd
    by_cases h : k = k1
    · simp [hmEntryModify, h, hmGet]
    · simp [hmEntryModify, h, hmGet, ih]

theorem hmGet_entryModify_ne {α : Type} (m : List (Symbol × α)) (k : Symbol)
    (d : α) (f : α → α) (q : Symbol) (h : q ≠ k) :
    hmGet (hmEntryModify m k d f) q = hmGet m q := by
  induction m with
  | nil => simp [hmEntryModify, hmGet, h]
  | cons hd tl ih =>
    obtain ⟨k1, v1⟩ := hd
    by_cases h1 : k = k1
    · subst h1
      simp [hmEntryModify, hmGet, h]
    · by_cases h2 : q = k1
      · simp [hmEntryModify, hmGet, h1, h2]
      · simp [hmEntryModify, hmGet, h1, h2, ih]

theorem hmGet_mapSnd {α β : Type} (f : α → β) (m : List (Symbol × α))
    (k : Symbol) :
    hmGet (m.map (fun p => (p.1, f p.2))) k = (hmGet m k).map f := by
  induction m with
  | nil => simp [hmGet]
  | cons hd tl ih =>
    obtain ⟨k1, v1⟩ := hd
    by_cases h : k = k1
    · simp [hmGet, h]
    · simp [hmGet, h, ih]

/-- The scope-name and constants components of every scope, plus sources
aside, that `add_rule` leaves untouched. -/
def scopeFrame (kb kb' : KnowledgeBase) : Prop :=
  ∀ n, (hmGet kb'.scopes n).map (fun sc => (sc.name, sc.constants)) =
    (hmGet kb.scopes n).map (fun sc => (sc.name, sc.constants))

theorem scopeFrame_trans {kb1 kb2 kb3 : KnowledgeBase}
    (h1 : scopeFrame kb1 kb2) (h2 : scopeFrame kb2 kb3) :
    scopeFrame kb1 kb3 := fun n => (h2 n).trans (h1 n)

theorem add_rule_frame (kb : KnowledgeBase) (r : Rule) (p : Path)
    (kb' : KnowledgeBase) (h : kb.add_rule r p = some kb') :
    scopeFrame kb kb' ∧ kb'.sources = kb.sources ∧
    kb'.gensym_counter = kb.gensym_counter ∧
    kb'.id_counter = kb.id_counter ∧
    kb'.inline_queries = kb.inline_queries := by
  unfold KnowledgeBase.add_rule at h
  cases hsc : hmGet kb.scopes p.into_1 with
  | none => rw [hsc] at h; exact absurd h (by simp)
  | some sc =>
    rw [hsc] at h
    simp only [Option.some.injEq] at h
    subst h
    refine ⟨?_, rfl, rfl, rfl, rfl⟩
    intro n
    by_cases hn : n = p.into_1
    · subst hn
      simp [hmGet_insert_self, hsc]
    · simp [hmGet_insert_ne _ _ _ _ hn]

theorem applyAddRules_frame (l : List (Rule × Path)) (kb kb' : KnowledgeBase)
    (h : applyAddRules kb l = some kb') :
    scopeFrame kb kb' ∧ kb'.sources = kb.sources ∧
    kb'.gensym_counter = kb.gensym_counter ∧
    kb'.id_counter = kb.id_counter ∧
    kb'.inline_queries = kb.inline_queries := by
  induction l generalizing kb with
  | nil =>
    simp only [applyAddRules, Option.some.injEq] at h
    subst h
    exact ⟨fun n => rfl, rfl, rfl, rfl, rfl⟩
  | cons hd tl ih =>
    obtain ⟨r, p⟩ := hd
    simp only [applyAddRules] at h
    cases hstep : kb.add_rule r p with
    | none => rw [hstep] at h; exact absurd h (by simp)
    | some kb1 =>
      rw [hstep] at h
      obtain ⟨f1, s1, g1, i1, q1⟩ := add_rule_frame kb r p kb1 hstep
      obtain ⟨f2, s2, g2, i2, q2⟩ := ih kb1 h
      exact ⟨scopeFrame_trans f1 f2, s2.trans s1, g2.trans g1,
        i2.trans i1, q2.trans q1⟩

/-- Case normal form of `lookup_constant`: base scope missing gives
not-found; a bare path reads the base scope's constants; a qualified path
reads the qualifying scope's constants, panicking when that scope is
unregistered. -/
theorem lookup_constant_cases (kb : KnowledgeBase) (p s : Path) :
    kb.lookup_constant p s =
      (match hmGet kb.scopes s.into_1, p.rest with
       | none, _ => .ok none
       | some sc, none => .ok (hmGet sc.constants p.first)
       | some _, some n =>
         match hmGet kb.scopes p.first with
         | none => .panicked
         | some inc => .ok (hmGet inc.constants n)) := by
  unfold KnowledgeBase.lookup_constant KnowledgeBase.get_included_scope
    Path.into_2 Path.into_1 Symbol.toPath
  rcases hb : hmGet kb.scopes s.first with _ | sc <;>
    rcases hr : p.rest with _ | n <;> simp [hr]

/-- Case normal form of `lookup_rule` (same resolution strategy as
`lookup_constant`, over the rules map). -/
theorem lookup_rule_cases (kb : KnowledgeBase) (p s : Path) :
    kb.lookup_rule p s =
      (match hmGet kb.scopes s.into_1, p.rest with
       | none, _ => .ok none
       | some sc, none => .ok (hmGet sc.rules p.first)
       | some _, some n =>
         match hmGet kb.scopes p.first with
         | none => .panicked
         | some inc => .ok (hmGet inc.rules n)) := by
  unfold KnowledgeBase.lookup_rule KnowledgeBase.get_included_scope
    Path.into_2 Path.into_1 Symbol.toPath
  rcases hb : hmGet kb.scopes s.first with _ | sc <;>
    rcases hr : p.rest with _ | n <;> simp [hr]

/-- Case normal form of `is_constant`: a bare lookup in the default
scope. -/
theorem is_constant_cases (kb : KnowledgeBase) (c : Symbol) :
    kb.is_constant c =
      (match hmGet kb.scopes defaultSym with
       | none => false
       | some sc => (hmGet sc.constants c).isSome) := by
  unfold KnowledgeBase.is_constant
  rw [lookup_constant_cases]
  rcases hb : hmGet kb.scopes defaultSym with _ | sc
  · simp [Symbol.toPath, Path.into_1, hb]
  · rcases hc : hmGet sc.constants c with _ | t <;>
      simp [Symbol.toPath, Path.into_1, hb, hc]

/-- kb.rs `clear_rules` per scope: same scopes, rules emptied. -/
theorem clear_rules_scopes (kb : KnowledgeBase) (n : Symbol) :
    hmGet kb.clear_rules.scopes n =
      (hmGet kb.scopes n).map (fun sc => { sc with rules := [] }) := by
  simpa [KnowledgeBase.clear_rules] using
    hmGet_mapSnd (fun sc => { sc with rules := ([] : List (Symbol × GenericRule)) })
      kb.scopes n

/-- After `clear_rules`, no rule lookup can succeed in any scope through
any path. -/
theorem clear_rules_lookup_rule_none (kb : KnowledgeBase) (p s : Path)
    (g : GenericRule) : kb.clear_rules.lookup_rule p s ≠ .ok (some g) := by
  rw [lookup_rule_cases]
  rcases hb : hmGet kb.clear_rules.scopes s.into_1 with _ | sc
  · simp
  · have hrules : sc.rules = [] := by
      rw [clear_rules_scopes] at hb
      cases hx : hmGet kb.scopes s.into_1 with
      | none => rw [hx] at hb; cases hb
      | some sc0 =>
        rw [hx] at hb
        have hb' : ({ sc0 with rules := [] } : Scope) = sc := Option.some.inj hb
        rw [← hb']
    rcases hr : p.rest with _ | n
    · simp [hrules, hmGet]
    · rcases hq : hmGet kb.clear_rules.scopes p.first with _ | inc
      · simp [Path.into_1, hq]
      · have hrules2 : inc.rules = [] := by
          rw [clear_rules_scopes] at hq
          cases hx : hmGet kb.scopes p.first with
          | none => rw [hx] at hq; cases hq
          | some sc0 =>
            rw [hx] at hq
            have hq' : ({ sc0 with rules := [] } : Scope) = inc := Option.some.inj hq
            rw [← hq']
        simp [Path.into_1, hq, hrules2, hmGet]

/-- kb.rs `constant` binds the name in the default scope. -/
theorem constant_default_binding (kb : KnowledgeBase) (k : Symbol) (v : Term) :
    ∃ sc, hmGet (kb.constant k v).scopes defaultSym = some sc ∧
      hmGet sc.constants k = some v := by
  have h1 := hmGet_entryModify_self kb.scopes defaultSym (Scope.new defaultSym.toPath)
    (fun sc => { sc with constants := hmInsert sc.constants k v })
  exact ⟨_, h1, hmGet_insert_self _ k v⟩

def si0 : SourceInfo := ⟨0, 0, 0⟩

/-- A deep example term touching every composite node kind, with key-sorted
maps. -/
def c3Term : Term :=
  .mk (.Dictionary (.mk [
    (⟨"a"⟩, .mk (.InstanceLiteral (.mk ⟨"d"⟩ (.mk [
      (⟨"e"⟩, .mk (.Call (.mk ⟨"f"⟩ [.mk (.Number (.Integer 2)) si0]
        (some [(⟨"kw"⟩, .mk (.Boolean true) si0)]))) si0),
      (⟨"g"⟩, .mk (.Expression (.mk .Add [.mk (.Number (.Integer 3)) si0,
        .mk (.Number (.Integer 4)) si0])) si0)]))) si0),
    (⟨"h"⟩, .mk (.List (.mk [.mk (.String "j") si0,
      .mk (.Variable ⟨⟨"z"⟩⟩) si0] (some ⟨⟨"tail"⟩⟩))) si0)])) ⟨1, 2, 3⟩

def c3Rule : Rule :=
  { name := ⟨"r"⟩
    params := [⟨.mk (.Variable ⟨⟨"p"⟩⟩) si0,
      some (.mk (.InstanceLiteral (.mk ⟨"T"⟩ (.mk []))) si0)⟩]
    body := c3Term
    source_info := ⟨9, 9, 9⟩
    required := true }

/-- C3: for the identity folder (a folder overriding no hooks), `fold_term`
is structurally the identity — provenance included — on every well-formed
term, and `fold_rule` is the identity on every well-formed rule. -/
theorem folder_identity_law :
    (∀ t : Term, wfTerm t = true → fold_term identityFolder t = t) ∧
    (∀ r : Rule, wfRule r = true → fold_rule identityFolder r = r) :=
  ⟨fold_term_id, fold_rule_id⟩

theorem folder_identity_law_witness :
    wfTerm c3Term = true ∧ fold_term identityFolder c3Term = c3Term ∧
    wfRule c3Rule = true ∧ fold_rule identityFolder c3Rule = c3Rule := by
  have h1 : wfTerm c3Term = true := by
    simp only [c3Term, si0, wfTerm, wfValue, wfDictionary, wfFields,
      wfInstanceLiteral, wfCall, wfTermList, wfPolarList, wfOperation,
      sortedKeys, keyBelow, symLt, List.all_cons, List.all_nil,
      Bool.and_true, Bool.true_and, Bool.and_eq_true, decide_eq_true_eq,
      String.lt_iff_toList_lt]
    decide
  have h3 : wfRule c3Rule = true := by
    simp only [c3Rule, wfRule, List.all_cons, List.all_nil, Bool.and_true,
      Bool.true_and, Bool.and_eq_true]
    constructor
    · simp [wfParam, wfTerm, wfValue, wfInstanceLiteral, wfDictionary,
        wfFields, sortedKeys, si0]
    · exact h1
  exact ⟨h1, folder_identity_law.1 c3Term h1, h3, folder_identity_law.2 c3Rule h3⟩

/-- C2: a folder overriding only the variable hook to rewrite `x` to `y`
rewrites every occurrence of `x` at any nesting depth — across `Call`
args, `List` elements (and rest-variable), `Dictionary` values,
`Operation` args — and changes nothing else: on well-formed terms,
`fold_term` with that folder coincides with the direct recursive
substitution `renameTerm`. -/
theorem folder_open_recursion_law (t : Term) (h : wfTerm t = true) :
    fold_term renameXYFolder t = renameTerm t :=
  fold_term_rename t h

/-- An example for the open-recursion law: `x` occurs under a call, a
list, a dictionary value and an operation argument. -/
def c2Term : Term :=
  .mk (.Expression (.mk .And [
    .mk (.Call (.mk ⟨"f"⟩ [.mk (.Variable ⟨⟨"x"⟩⟩) si0] none)) si0,
    .mk (.List (.mk [.mk (.Variable ⟨⟨"x"⟩⟩) si0] none)) si0,
    .mk (.Dictionary (.mk [(⟨"k"⟩, .mk (.Variable ⟨⟨"x"⟩⟩) si0)])) si0,
    .mk (.Variable ⟨⟨"x"⟩⟩) si0])) ⟨7, 7, 7⟩

/-- The term `c2Term` with every `x` rewritten to `y`. -/
def c2TermExpected : Term :=
  .mk (.Expression (.mk .And [
    .mk (.Call (.mk ⟨"f"⟩ [.mk (.Variable ⟨⟨"y"⟩⟩) si0] none)) si0,
    .mk (.List (.mk [.mk (.Variable ⟨⟨"y"⟩⟩) si0] none)) si0,
    .mk (.Dictionary (.mk [(⟨"k"⟩, .mk (.Variable ⟨⟨"y"⟩⟩) si0)])) si0,
    .mk (.Variable ⟨⟨"y"⟩⟩) si0])) ⟨7, 7, 7⟩

theorem folder_open_recursion_law_witness :
    wfTerm c2Term = true ∧
    fold_term renameXYFolder c2Term = renameTerm c2Term ∧
    renameTerm c2Term = c2TermExpected := by
  have h1 : wfTerm c2Term = true := by
    simp [c2Term, wfTerm, wfValue, wfOperation, wfTermList, wfCall,
      wfPolarList, wfDictionary, wfFields, sortedKeys, keyBelow]
  refine ⟨h1, folder_open_recursion_law c2Term h1, ?_⟩
  simp [c2Term, c2TermExpected, renameTerm, renameValue, renameOperation,
    renameTermList, renameCall, renamePolarList, renameDictionary,
    renameFields, renameHook, xVar, yVar]

/-- C9: when a folder's `fold_symbol` collides two distinct keys of a
dictionary (or of a call's kwargs map), the collected output map keeps a
single entry for the collided symbol, holding the value transformed from
the key that iterates later, so the output has fewer entries than the
input. -/
theorem map_key_collision_last_wins (F : Folder) (k1 k2 s : Symbol)
    (v1 v2 : Term) (name : Symbol) (args : List Term)
    (h1 : F.fold_symbol k1 = s) (h2 : F.fold_symbol k2 = s)
    (hlt : symLt k1 k2 = true) :
    fold_dictionary F (.mk [(k1, v1), (k2, v2)]) =
      .mk [(s, fold_term F v2)] ∧
    fold_call F (.mk name args (some [(k1, v1), (k2, v2)])) =
      .mk (F.fold_symbol name) (fold_term_list F args)
        (some [(s, fold_term F v2)]) := by
  constructor
  · simp [fold_dictionary, fold_fields, h1, h2, btreeFromList, btreeInsert]
  · simp [fold_call, fold_fields, h1, h2, btreeFromList, btreeInsert]

/-- A folder that collapses every symbol to `c` and keeps all other hooks
at their defaults. -/
def c9Folder : Folder :=
  { identityFolder with fold_symbol := fun _ => ⟨"c"⟩ }

theorem map_key_collision_last_wins_witness :
    symLt ⟨"a"⟩ ⟨"b"⟩ = true ∧
    fold_dictionary c9Folder (.mk [(⟨"a"⟩, .mk (.Number (.Integer 1)) si0),
      (⟨"b"⟩, .mk (.Number (.Integer 2)) si0)]) =
      .mk [(⟨"c"⟩, fold_term c9Folder (.mk (.Number (.Integer 2)) si0))] := by
  have hlt : symLt (⟨"a"⟩ : Symbol) ⟨"b"⟩ = true := by
    simp only [symLt, decide_eq_true_eq, String.lt_iff_toList_lt]
    decide
  exact ⟨hlt, (map_key_collision_last_wins c9Folder ⟨"a"⟩ ⟨"b"⟩ ⟨"c"⟩
    (.mk (.Number (.Integer 1)) si0) (.mk (.Number (.Integer 2)) si0)
    ⟨"n"⟩ [] rfl rfl hlt).1⟩

/-- C1 counterexample: on a fresh knowledge base (the base scope `default`
is registered), looking up a path qualified by the unregistered scope
`missing` panics (the `unwrap` of `get_included_scope`'s `None`) instead
of returning "not found", for both `lookup_constant` and `lookup_rule`. -/
theorem lookup_qualified_unregistered_panics :
    KnowledgeBase.new.lookup_constant ⟨⟨"missing"⟩, some ⟨"x"⟩⟩
      defaultSym.toPath = .panicked ∧
    KnowledgeBase.new.lookup_rule ⟨⟨"missing"⟩, some ⟨"x"⟩⟩
      defaultSym.toPath = .panicked :=
  ⟨rfl, rfl⟩

/-- C1 (amended): `lookup_constant`, `lookup_rule`, `get_included_scope`
and `is_constant` return "not found" (`none` / `false`) without panicking
when the base scope or the looked-up name is unregistered; however, when
the base scope is registered and the path is qualified, both lookups panic
— rather than returning "not found" — exactly when the qualifying scope is
unregistered. -/
theorem lookup_absence_and_panic_behaviour (kb : KnowledgeBase) (p s : Path)
    (c : Symbol) :
    (hmGet kb.scopes s.into_1 = none →
      kb.lookup_constant p s = .ok none ∧ kb.lookup_rule p s = .ok none) ∧
    (∀ sc, hmGet kb.scopes s.into_1 = some sc → p.rest = none →
      hmGet sc.constants p.first = none → kb.lookup_constant p s = .ok none) ∧
    (∀ sc, hmGet kb.scopes s.into_1 = some sc → p.rest = none →
      hmGet sc.rules p.first = none → kb.lookup_rule p s = .ok none) ∧
    (∀ sc n inc, hmGet kb.scopes s.into_1 = some sc → p.rest = some n →
      hmGet kb.scopes p.first = some inc → hmGet inc.constants n = none →
      kb.lookup_constant p s = .ok none) ∧
    (∀ sc n inc, hmGet kb.scopes s.into_1 = some sc → p.rest = some n →
      hmGet kb.scopes p.first = some inc → hmGet inc.rules n = none →
      kb.lookup_rule p s = .ok none) ∧
    (∀ b, hmGet kb.scopes p.into_1 = none → kb.get_included_scope b p = none) ∧
    (hmGet kb.scopes defaultSym = none → kb.is_constant c = false) ∧
    (∀ sc, hmGet kb.scopes defaultSym = some sc → hmGet sc.constants c = none →
      kb.is_constant c = false) ∧
    (kb.lookup_constant p s = .panicked ↔
      (hmGet kb.scopes s.into_1).isSome = true ∧ p.rest.isSome = true ∧
        hmGet kb.scopes p.first = none) ∧
    (kb.lookup_rule p s = .panicked ↔
      (hmGet kb.scopes s.into_1).isSome = true ∧ p.rest.isSome = true ∧
        hmGet kb.scopes p.first = none) := by
  refine ⟨?_, ?_, ?_, ?_, ?_, ?_, ?_, ?_, ?_, ?_⟩
  · intro hb
    rw [lookup_constant_cases, lookup_rule_cases]
    rcases hr : p.rest <;> simp [hb]
  · intro sc hb hr hn
    rw [lookup_constant_cases]
    simp [hb, hr, hn]
  · intro sc hb hr hn
    rw [lookup_rule_cases]
    simp [hb, hr, hn]
  · intro sc n inc hb hr hq hn
    rw [lookup_constant_cases]
    simp [hb, hr, hq, hn]
  · intro sc n inc hb hr hq hn
    rw [lookup_rule_cases]
    simp [hb, hr, hq, hn]
  · intro b hb
    simpa [KnowledgeBase.get_included_scope] using hb
  · intro hb
    rw [is_constant_cases]
    simp [hb]
  · intro sc hb hn
    rw [is_constant_cases]
    simp [hb, hn]
  · rw [lookup_constant_cases]
    rcases hb : hmGet kb.scopes s.into_1 with _ | sc <;>
      rcases hr : p.rest with _ | n <;>
        rcases hq : hmGet kb.scopes p.first with _ | inc <;> simp [hq]
  · rw [lookup_rule_cases]
    rcases hb : hmGet kb.scopes s.into_1 with _ | sc <;>
      rcases hr : p.rest with _ | n <;>
        rcases hq : hmGet kb.scopes p.first with _ | inc <;> simp [hq]

theorem lookup_absence_and_panic_behaviour_witness :
    hmGet KnowledgeBase.new.scopes (Path.into_1 ⟨⟨"nope"⟩, none⟩) = none ∧
    KnowledgeBase.new.lookup_constant ⟨⟨"k"⟩, none⟩ ⟨⟨"nope"⟩, none⟩ =
      .ok none ∧
    KnowledgeBase.new.lookup_rule ⟨⟨"k"⟩, none⟩ ⟨⟨"nope"⟩, none⟩ = .ok none :=
  ⟨rfl,
    (lookup_absence_and_panic_behaviour KnowledgeBase.new ⟨⟨"k"⟩, none⟩
      ⟨⟨"nope"⟩, none⟩ ⟨"k"⟩).1 rfl⟩

/-- C10: whenever the base scope argument is unregistered, both lookups
return "not found" — even for a qualified path whose qualifying scope is
registered and contains the requested name. -/
theorem lookup_requires_registered_base (kb : KnowledgeBase) (p s : Path)
    (h : hmGet kb.scopes s.into_1 = none) :
    kb.lookup_constant p s = .ok none ∧ kb.lookup_rule p s = .ok none := by
  rw [lookup_constant_cases, lookup_rule_cases]
  rcases hr : p.rest <;> simp [h]

def c10Term : Term := .mk (.Boolean true) si0

/-- A scope named `a` holding the single constant `x`. -/
def c10Scope : Scope :=
  { name := Symbol.toPath ⟨"a"⟩
    constants := [(⟨"x"⟩, c10Term)]
    rules := [] }

/-- A knowledge base whose only scope `a` contains the constant `x`. -/
def c10KB : KnowledgeBase :=
  { scopes := [(⟨"a"⟩, c10Scope)]
    sources := Sources.empty
    gensym_counter := 1
    id_counter := 1
    inline_queries := [] }

theorem lookup_requires_registered_base_witness :
    hmGet c10KB.scopes (Path.into_1 ⟨⟨"b"⟩, none⟩) = none ∧
    (∃ sc, hmGet c10KB.scopes ⟨"a"⟩ = some sc ∧
      hmGet sc.constants ⟨"x"⟩ = some c10Term) ∧
    c10KB.lookup_constant ⟨⟨"a"⟩, some ⟨"x"⟩⟩ ⟨⟨"b"⟩, none⟩ = .ok none ∧
    c10KB.lookup_rule ⟨⟨"a"⟩, some ⟨"x"⟩⟩ ⟨⟨"b"⟩, none⟩ = .ok none :=
  ⟨rfl, ⟨_, rfl, rfl⟩,
    (lookup_requires_registered_base c10KB ⟨⟨"a"⟩, some ⟨"x"⟩⟩
      ⟨⟨"b"⟩, none⟩ rfl).1,
    (lookup_requires_registered_base c10KB ⟨⟨"a"⟩, some ⟨"x"⟩⟩
      ⟨⟨"b"⟩, none⟩ rfl).2⟩

/-- C6: `add_rule` on an unregistered scope is the modelled panic — no
resulting knowledge-base state at all, so it neither no-ops nor partially
updates. -/
theorem add_rule_unregistered_scope_fatal (kb : KnowledgeBase) (r : Rule)
    (p : Path) (h : hmGet kb.scopes p.into_1 = none) :
    kb.add_rule r p = none := by
  unfold KnowledgeBase.add_rule
  rw [h]

def dummyRule : Rule :=
  { name := ⟨"f"⟩
    params := []
    body := .mk (.Boolean true) si0
    source_info := si0
    required := false }

theorem add_rule_unregistered_scope_fatal_witness :
    hmGet KnowledgeBase.new.scopes (Path.into_1 ⟨⟨"nope"⟩, none⟩) = none ∧
    KnowledgeBase.new.add_rule dummyRule ⟨⟨"nope"⟩, none⟩ = none :=
  ⟨rfl, add_rule_unregistered_scope_fatal KnowledgeBase.new dummyRule
    ⟨⟨"nope"⟩, none⟩ rfl⟩

/-- C7: the gensym naming rule — `_` gives `_<n>`; a prefix that already
starts with `_` gives `<prefix>_<n>`; any other prefix gives
`_<prefix>_<n>`; consequently `foo` and `_foo` at the same counter value
produce the same textual name. -/
theorem gensym_naming_rule (kb : KnowledgeBase) (pfx : String) :
    (kb.gensym "_").1 = Symbol.mk ("_" ++ toString kb.gensym_counter) ∧
    (pfx ≠ "_" → startsWithUnderscore pfx = true →
      (kb.gensym pfx).1 = Symbol.mk (pfx ++ "_" ++ toString kb.gensym_counter)) ∧
    (startsWithUnderscore pfx = false →
      (kb.gensym pfx).1 =
        Symbol.mk ("_" ++ pfx ++ "_" ++ toString kb.gensym_counter)) ∧
    (kb.gensym "foo").1 = (kb.gensym "_foo").1 := by
  refine ⟨?_, ?_, ?_, ?_⟩
  · simp [KnowledgeBase.gensym, counterNext]
  · intro hne hsw
    simp [KnowledgeBase.gensym, counterNext, hne, hsw]
  · intro hsw
    have hne : pfx ≠ "_" := by
      intro he
      rw [he] at hsw
      simp [startsWithUnderscore] at hsw
    simp [KnowledgeBase.gensym, counterNext, hne, hsw]
  · have e1 : ("foo" : String) ≠ "_" := by decide
    have e2 : startsWithUnderscore "foo" = false := by decide
    have e3 : ("_foo" : String) ≠ "_" := by decide
    have e4 : startsWithUnderscore "_foo" = true := by decide
    simp [KnowledgeBase.gensym, counterNext, e1, e2, e3, e4]

theorem gensym_naming_rule_witness :
    (("_ub" : String) ≠ "_") ∧ startsWithUnderscore "_ub" = true ∧
    (KnowledgeBase.new.gensym "_ub").1 =
      Symbol.mk ("_ub" ++ "_" ++ toString (1 : Nat)) ∧
    startsWithUnderscore "bar" = false ∧
    (KnowledgeBase.new.gensym "bar").1 =
      Symbol.mk ("_" ++ "bar" ++ "_" ++ toString (1 : Nat)) :=
  ⟨by decide, by decide,
    (gensym_naming_rule KnowledgeBase.new "_ub").2.1 (by decide) (by decide),
    by decide,
    (gensym_naming_rule KnowledgeBase.new "bar").2.2.1 (by decide)⟩

/-- C8: `new_id` values never exceed 2^52 in magnitude, and successive
calls strictly increase until wraparound at 2^52 (after which the counter
restarts). -/
theorem new_id_monotone (kb : KnowledgeBase) (h : kb.id_counter < MAX_ID) :
    (kb.new_id).1 < MAX_ID ∧
    ((kb.new_id).2).id_counter < MAX_ID ∧
    ((kb.new_id).1 + 1 < MAX_ID → (kb.new_id).1 < (((kb.new_id).2).new_id).1) ∧
    ((kb.new_id).1 + 1 ≥ MAX_ID → (((kb.new_id).2).new_id).1 = 1) := by
  by_cases hc : kb.id_counter + 1 < MAX_ID
  · simp only [KnowledgeBase.new_id, counterNext, if_pos hc]
    exact ⟨h, hc, fun _ => Nat.lt_succ_self _, fun hge => absurd hc (by omega)⟩
  · simp only [KnowledgeBase.new_id, counterNext, if_neg hc]
    refine ⟨h, ?_, fun hlt => absurd hlt hc, fun _ => trivial⟩
    have : (1 : Nat) < MAX_ID := by norm_num [MAX_ID]
    omega

theorem new_id_monotone_witness :
    KnowledgeBase.new.id_counter < MAX_ID ∧
    (KnowledgeBase.new.new_id).1 < MAX_ID :=
  ⟨by norm_num [KnowledgeBase.new, MAX_ID],
    (new_id_monotone KnowledgeBase.new
      (by norm_num [KnowledgeBase.new, MAX_ID])).1⟩

/-- The group that `add_rule` appends to: the scope's existing group for
the rule's name, or a fresh empty one, with the clause appended. -/
def addRuleGroup (r : Rule) (sc : Scope) : GenericRule :=
  ((hmGet sc.rules r.name).getD (GenericRule.new r.name [])).add_rule r

/-- The scope after `add_rule`: the updated group stored under the rule's
name. -/
def addRuleScope (r : Rule) (sc : Scope) : Scope :=
  { sc with rules := hmInsert sc.rules r.name (addRuleGroup r sc) }

/-- The knowledge base after `add_rule` on a registered scope `sc`. -/
def addRuleResult (kb : KnowledgeBase) (r : Rule) (p : Path) (sc : Scope) :
    KnowledgeBase :=
  { kb with scopes := hmInsert kb.scopes p.into_1 (addRuleScope r sc) }

/-- kb.rs `add_rule` on a registered scope: look up or create the group
for the rule's name and append the clause. -/
theorem add_rule_registered (kb : KnowledgeBase) (r : Rule) (p : Path)
    (sc : Scope) (hreg : hmGet kb.scopes p.into_1 = some sc) :
    kb.add_rule r p = some (addRuleResult kb r p sc) := by
  unfold KnowledgeBase.add_rule addRuleResult addRuleScope addRuleGroup
  rw [hreg]
  cases hg : hmGet sc.rules r.name <;> simp [hg]

/-- C5: two `add_rule` calls with rules sharing one name in one registered
scope produce a single group holding the pre-existing clauses followed by
both new clauses in insertion order, retrievable via `lookup_rule`. -/
theorem rule_accumulation (kb : KnowledgeBase) (r1 r2 : Rule) (p : Path)
    (sc : Scope) (hreg : hmGet kb.scopes p.into_1 = some sc)
    (hname : r2.name = r1.name) :
    ∃ kb1 kb2 g,
      kb.add_rule r1 p = some kb1 ∧
      kb1.add_rule r2 p = some kb2 ∧
      kb2.lookup_rule r1.name.toPath p = .ok (some g) ∧
      g.rules = ((hmGet sc.rules r1.name).map GenericRule.rules).getD []
        ++ [r1, r2] := by
  have hg1 := add_rule_registered kb r1 p sc hreg
  have hscope1 : hmGet (addRuleResult kb r1 p sc).scopes p.into_1 =
      some (addRuleScope r1 sc) :=
    hmGet_insert_self kb.scopes p.into_1 (addRuleScope r1 sc)
  have hg2 := add_rule_registered (addRuleResult kb r1 p sc) r2 p
    (addRuleScope r1 sc) hscope1
  refine ⟨_, _, addRuleGroup r2 (addRuleScope r1 sc), hg1, hg2, ?_, ?_⟩
  · rw [lookup_rule_cases]
    simp [addRuleResult, addRuleScope, Symbol.toPath, hmGet_insert_self, hname]
  · simp only [addRuleGroup, addRuleScope, hname, hmGet_insert_self,
      Option.getD_some, GenericRule.add_rule]
    cases hg0 : hmGet sc.rules r1.name <;> simp [GenericRule.new, hg0]

def c5Rule1 : Rule :=
  { name := ⟨"f"⟩
    params := []
    body := .mk (.Boolean true) si0
    source_info := si0
    required := false }

def c5Rule2 : Rule :=
  { name := ⟨"f"⟩
    params := []
    body := .mk (.Boolean false) si0
    source_info := ⟨0, 4, 9⟩
    required := false }

theorem rule_accumulation_witness :
    ∃ kb1 kb2 g,
      KnowledgeBase.new.add_rule c5Rule1 defaultSym.toPath = some kb1 ∧
      kb1.add_rule c5Rule2 defaultSym.toPath = some kb2 ∧
      kb2.lookup_rule c5Rule1.name.toPath defaultSym.toPath = .ok (some g) ∧
      g.rules = ((hmGet (Scope.new defaultSym.toPath).rules c5Rule1.name).map
        GenericRule.rules).getD [] ++ [c5Rule1, c5Rule2] :=
  rule_accumulation KnowledgeBase.new c5Rule1 c5Rule2 defaultSym.toPath
    (Scope.new defaultSym.toPath) rfl rfl

/-- C4: after `constant(k, v)`, any panic-free sequence of `add_rule`
calls, then `clear_rules()`: `is_constant k` still holds and
`lookup_constant` still resolves `k` to `v`; no rule lookup can succeed
through any path; `clear_rules` empties every scope's rule map, resets the
source registry and empties the inline-query queue, and leaves each
scope's name/constants and both counters untouched. -/
theorem constant_persistence_across_reload (kb0 : KnowledgeBase) (k : Symbol)
    (v : Term) (rps : List (Rule × Path)) (kb1 : KnowledgeBase)
    (h : applyAddRules (kb0.constant k v) rps = some kb1) :
    (kb1.clear_rules).is_constant k = true ∧
    (kb1.clear_rules).lookup_constant k.toPath defaultSym.toPath =
      .ok (some v) ∧
    (∀ p s : Path, ∀ g, (kb1.clear_rules).lookup_rule p s ≠ .ok (some g)) ∧
    (∀ n, hmGet (kb1.clear_rules).scopes n =
      (hmGet kb1.scopes n).map (fun sc => { sc with rules := [] })) ∧
    (kb1.clear_rules).sources = Sources.empty ∧
    (kb1.clear_rules).inline_queries = [] ∧
    (kb1.clear_rules).gensym_counter = kb0.gensym_counter ∧
    (kb1.clear_rules).id_counter = kb0.id_counter := by
  obtain ⟨scc, hscc, hk⟩ := constant_default_binding kb0 k v
  obtain ⟨hframe, hsrc, hgc, hic, hq⟩ :=
    applyAddRules_frame rps (kb0.constant k v) kb1 h
  have hd : ∃ sc1, hmGet kb1.scopes defaultSym = some sc1 ∧
      sc1.constants = scc.constants := by
    have hfd := hframe defaultSym
    rw [hscc] at hfd
    cases hx : hmGet kb1.scopes defaultSym with
    | none => rw [hx] at hfd; cases hfd
    | some sc1 =>
      rw [hx] at hfd
      have hfd' := Option.some.inj hfd
      exact ⟨sc1, rfl, congrArg Prod.snd hfd'⟩
  obtain ⟨sc1, hsc1, hconsts⟩ := hd
  have hsc2 : hmGet (kb1.clear_rules).scopes defaultSym =
      some { sc1 with rules := [] } := by
    rw [clear_rules_scopes, hsc1]
    rfl
  refine ⟨?_, ?_, ?_, clear_rules_scopes kb1, rfl, rfl, ?_, ?_⟩
  · rw [is_constant_cases, hsc2]
    simp [hconsts, hk]
  · rw [lookup_constant_cases]
    simp only [Symbol.toPath, Path.into_1, hsc2]
    simp [hconsts, hk]
  · exact fun p s g => clear_rules_lookup_rule_none kb1 p s g
  · exact hgc
  · exact hic

def c4Term : Term := .mk (.String "val") si0

def c4Rule : Rule :=
  { name := ⟨"g"⟩
    params := []
    body := .mk (.Boolean true) si0
    source_info := si0
    required := false }

theorem constant_persistence_across_reload_witness :
    ∃ kb1,
      applyAddRules (KnowledgeBase.new.constant ⟨"k"⟩ c4Term)
        [(c4Rule, defaultSym.toPath)] = some kb1 ∧
      (kb1.clear_rules).is_constant ⟨"k"⟩ = true ∧
      (kb1.clear_rules).lookup_constant (Symbol.toPath ⟨"k"⟩)
        defaultSym.toPath = .ok (some c4Term) :=
  ⟨_, rfl,
    (constant_persistence_across_reload KnowledgeBase.new ⟨"k"⟩ c4Term
      [(c4Rule, defaultSym.toPath)] _ rfl).1,
    (constant_persistence_across_reload KnowledgeBase.new ⟨"k"⟩ c4Term
      [(c4Rule, defaultSym.toPath)] _ rfl).2.1⟩

end Polar
